import Mathlib

/-! # The XOR tool of `testfile.c`

A shallow embedding of `reverseString`, `xorEncrypt` and `main` from
`src/testfile.c`, and the properties of the XOR codec checked against it.

Memory model.  A `char` buffer is a `List Byte`: the whole array object, the
terminator and whatever follows it included.  A `char` is its 8-bit pattern
(`Fin 256`), so `^` on two `char`s is XOR of the patterns reduced modulo `2^8`
(the integer promotion of the operands and the conversion back to `char` do
not change the low eight bits).  An access at an index outside the array is
undefined behaviour in C and is the fault `Fault.outOfBounds` here.

Integers.  `int` is 32 bits wide.  The counter `int i` of `xorEncrypt` is a
natural number that may not pass `INT_MAX`: the increment at `INT_MAX` is
undefined behaviour and is the fault `Fault.intOverflow`.  In `reverseString`
the value of `strlen` is converted to `int` by `toInt32` (reduction modulo
`2^32` into the signed range), and `length` is an integer that may be negative.
-/

namespace Silence

/-- One `char`, as its 8-bit pattern. -/
abbrev Byte := Fin 256

/-- The capacity of `message`: `#define MAX_BUFFER 256`. -/
abbrev MAX_BUFFER : Nat := 256

/-- The largest value of an `int`: `2^31 - 1`. -/
abbrev INT_MAX : Nat := 2147483647

/-- How a run of the embedded code can fail to produce a result. -/
inductive Fault where
  /-- an index outside the array object was accessed (undefined behaviour) -/
  | outOfBounds
  /-- the fuel of the loop model was used up before the loop ended -/
  | outOfFuel
  /-- an `int` was incremented at `INT_MAX` (undefined behaviour) -/
  | intOverflow
  deriving DecidableEq

deriving instance DecidableEq for Except

/-- A memory access of `xorEncrypt` to `data[idx]`. -/
inductive Access where
  | read (idx : Nat)
  | write (idx : Nat)
  deriving DecidableEq

/-- The index an access touches. -/
def Access.idx : Access → Nat
  | .read j => j
  | .write j => j

/-- The state of the loop of `xorEncrypt`: the buffer `data` points to and the
counter `i`, with two ghost fields, the number of loop bodies executed so far
and the accesses made so far (oldest first). -/
structure XorState where
  data : List Byte
  i : Nat
  iters : Nat
  trace : List Access
  deriving DecidableEq

/-- The C string a buffer holds: the bytes before the first NUL (what `printf`
prints for `%s`, and the part of the buffer `xorEncrypt` walks over). -/
def cstr (data : List Byte) : List Byte :=
  data.takeWhile (fun c => c ≠ 0)

/-- The position of the first NUL in a buffer, `none` when it has none (the
value of C's `strlen` on a terminated buffer). -/
def strlen : List Byte → Option Nat
  | [] => none
  | c :: rest => if c = 0 then some 0 else (strlen rest).map (· + 1)

/--
The loop of `xorEncrypt`:
```c
for (i = 0; data[i] != '\0'; i++) {
    data[i] = data[i] ^ key;
}
```
One unit of fuel is one evaluation of the loop condition.  After the body,
`i++` faults when `i` is `INT_MAX`.
-/
def xorEncryptLoop (key : Byte) : Nat → XorState → Except Fault XorState
  | 0, _ => .error .outOfFuel
  | fuel + 1, st =>
    match st.data[st.i]? with
    | none => .error .outOfBounds
    | some c =>
      if c ≠ 0 then
        if st.i < INT_MAX then
          xorEncryptLoop key fuel
            { data := st.data.set st.i (c ^^^ key)
              i := st.i + 1
              iters := st.iters + 1
              trace := st.trace ++ [.read st.i, .read st.i, .write st.i] }
        else
          .error .intOverflow
      else
        .ok { st with trace := st.trace ++ [.read st.i] }

/-- A call `xorEncrypt(data, key)` with its final loop state.  The condition is
evaluated at most `data.length + 1` times before an access leaves the array, so
this much fuel never runs out (`xorEncryptRun_fuel`). -/
def xorEncryptRun (data : List Byte) (key : Byte) : Except Fault XorState :=
  xorEncryptLoop key (data.length + 1) { data := data, i := 0, iters := 0, trace := [] }

/-- The function `void xorEncrypt(char* data, char key)`: the buffer after the call. -/
def xorEncrypt (data : List Byte) (key : Byte) : Except Fault (List Byte) :=
  (xorEncryptRun data key).map (·.data)

/-- The call `strncpy(dest, src, n)`: the first `n` bytes of `dest` become the string
`src` holds, cut at `n` bytes and padded with NULs up to `n` bytes; the rest of
`dest` is kept.  `src` is the source string, which ends at its first NUL or at
the end of the list. -/
def strncpy (dest src : List Byte) (n : Nat) : List Byte :=
  let body := (cstr src).take n
  body ++ List.replicate (n - body.length) 0 ++ dest.drop n

/-- What one `printf` call of `main` writes, by its format string. -/
inductive Printed where
  /-- the three banner lines -/
  | banner
  /-- the line `"Usage: %s <message> <key>\n"` -/
  | usageLine (prog : List Byte)
  /-- the line `"Example: %s \"Hello World\" A\n"` -/
  | exampleLine (prog : List Byte)
  /-- the line `"Original message: %s\n"` -/
  | original (text : List Byte)
  /-- the line `"Encryption key: %c\n\n"` -/
  | keyLine (key : Byte)
  /-- the line `"Encrypted: %s\n"` -/
  | encrypted (text : List Byte)
  /-- the line `"Decrypted: %s\n"` -/
  | decrypted (text : List Byte)
  deriving DecidableEq

/-- The observable result of `main`: the return value and what was printed,
with two ghost counters for the calls of `strncpy` and of `xorEncrypt`. -/
structure MainResult where
  status : Int
  out : List Printed
  copies : Nat
  xorCalls : Nat
  deriving DecidableEq

/-- The function `int main(int argc, char* argv[])`.  `argv` is the list of the argument
strings (`argc` is its length).  The array `message` starts out as
`MAX_BUFFER` arbitrary bytes, taken as zeros here: `strncpy` and the store to
`message[MAX_BUFFER - 1]` overwrite all of them before the first read. -/
def main (argv : List (List Byte)) : Except Fault MainResult :=
  if argv.length < 3 then
    .ok { status := 1
          out := [.banner, .usageLine (cstr (argv.getD 0 [])), .exampleLine (cstr (argv.getD 0 []))]
          copies := 0
          xorCalls := 0 }
  else do
    let message := strncpy (List.replicate MAX_BUFFER 0) (argv.getD 1 []) (MAX_BUFFER - 1)
    let message := message.set (MAX_BUFFER - 1) 0
    let key : Byte := (argv.getD 2 []).headD 0
    let out := [.banner, .original (cstr message), .keyLine key]
    let message ← xorEncrypt message key
    let out := out ++ [.encrypted (cstr message)]
    let message ← xorEncrypt message key
    let out := out ++ [.decrypted (cstr message)]
    pure { status := 0, out := out, copies := 1, xorCalls := 2 }

/-- The accesses of the loop from counter `i` on, when the first NUL is `m`
positions ahead: per iteration the read of the condition, then the read and the
write of the body; at the end the read that finds the NUL. -/
def loopAccesses : Nat → Nat → List Access
  | i, 0 => [.read i]
  | i, m + 1 => [.read i, .read i, .write i] ++ loopAccesses (i + 1) m

/-- Two calls in a row with one key, as `main` makes them (lines 54 and 58). -/
def xorEncryptTwice (data : List Byte) (key : Byte) : Except Fault (List Byte) :=
  xorEncrypt data key >>= fun data1 => xorEncrypt data1 key

/-- The chunk property at `a`, `b`, `key`: each of `a`, `b` and `a ++ b` is put
in a buffer of its own, followed by the terminator; the call on the buffer of
`a ++ b` leaves the bytes the calls on the two chunks leave, one after the
other. -/
def ChunkHomomorphismAt (a b : List Byte) (key : Byte) : Prop :=
  ∃ ra rb : List Byte, ra.length = a.length ∧ rb.length = b.length ∧
    xorEncrypt (a ++ [0]) key = .ok (ra ++ [0]) ∧
    xorEncrypt (b ++ [0]) key = .ok (rb ++ [0]) ∧
    xorEncrypt (a ++ b ++ [0]) key = .ok (ra ++ rb ++ [0])

/-- The bytes of `"Hello World"`. -/
def helloWorld : List Byte :=
  [0x48, 0x65, 0x6C, 0x6C, 0x6F, 0x20, 0x57, 0x6F, 0x72, 0x6C, 0x64]

/-- The array `message` as `main` hands it to `xorEncrypt` (lines 46 and 47):
`strncpy(message, argv[1], MAX_BUFFER - 1)`, then
`message[MAX_BUFFER - 1] = 0`. -/
def messageBuffer (arg : List Byte) : List Byte :=
  (strncpy (List.replicate MAX_BUFFER 0) arg (MAX_BUFFER - 1)).set (MAX_BUFFER - 1) 0

/-- The conversion of a `size_t` value to `int`, as in `int length = strlen(str)`:
the value is reduced modulo `2^32` into the range from `-2^31` to `2^31 - 1`. -/
def toInt32 (n : Nat) : Int :=
  (((n + 2147483648) % 4294967296 : Nat) : Int) - 2147483648

/-- The loop of `reverseString`, with `length` the `int` set before it:
```c
for (i = 0; i < length / 2; i++) {
    char temp = str[i];
    str[i] = str[length - 1 - i];
    str[length - 1 - i] = temp;
}
```
One unit of fuel is one evaluation of the loop condition.  Both reads of an
iteration come before its two writes.  The division of `int`s truncates.  The
counter stays below `length / 2`, so its increment cannot overflow, and inside
the loop `length - 1 - i` is not negative. -/
def reverseStringLoop (length : Int) : Nat → Nat → List Byte → Except Fault (List Byte)
  | 0, _, _ => .error .outOfFuel
  | fuel + 1, i, str =>
    if (i : Int) < Int.tdiv length 2 then
      match str[i]?, str[(length - 1 - (i : Int)).toNat]? with
      | some temp, some c =>
        reverseStringLoop length fuel (i + 1)
          ((str.set i c).set (length - 1 - (i : Int)).toNat temp)
      | _, _ => .error .outOfBounds
    else
      .ok str

/-- The function `void reverseString(char* str)`: the buffer after the call.
`strlen` on a buffer without a NUL reads past the array.  Its value is
converted to `int`.  The condition of the loop is evaluated at most
`length / 2 + 1` times (once when `length` is negative). -/
def reverseString (str : List Byte) : Except Fault (List Byte) :=
  match strlen str with
  | none => .error .outOfBounds
  | some n => reverseStringLoop (toInt32 n) ((toInt32 n).toNat / 2 + 1) 0 str

/-! ## Bytes, string length and the loop -/

/-- XOR of two bytes is XOR of their values: the reduction modulo `2^8` is idle. -/
theorem byte_xor_val (a k : Byte) : (a ^^^ k).val = a.val ^^^ k.val := by
  have h : a.val ^^^ k.val < 2 ^ 8 := Nat.xor_lt_two_pow a.isLt k.isLt
  show (a.val ^^^ k.val) % 256 = a.val ^^^ k.val
  exact Nat.mod_eq_of_lt h

/-- XOR with the zero byte changes nothing. -/
theorem byte_xor_zero (a : Byte) : a ^^^ 0 = a := by
  apply Fin.ext
  rw [byte_xor_val]
  exact Nat.xor_zero a.val

/-- XOR with a key leaves a byte as it is only for the key 0. -/
theorem byte_xor_eq_self (c key : Byte) (h : c ^^^ key = c) : key = 0 := by
  have hv := congrArg Fin.val h
  rw [byte_xor_val] at hv
  have hk := Nat.xor_cancel_left c.val key.val
  rw [hv, Nat.xor_self] at hk
  exact Fin.ext hk.symm

/-- The first NUL lies inside the buffer. -/
theorem strlen_lt_length : ∀ (data : List Byte) (n : Nat), strlen data = some n → n < data.length
  | [], n, h => by simp [strlen] at h
  | c :: rest, n, h => by
    by_cases hc : c = 0
    · simp [strlen, hc] at h
      simp [← h]
    · simp only [strlen, hc, if_false, Option.map_eq_some'] at h
      obtain ⟨m, hm, rfl⟩ := h
      have := strlen_lt_length rest m hm
      simp only [List.length_cons]
      omega

/-- Loop invariant: from counter `pre.length`, with the first NUL of the rest of
the buffer `m` positions ahead, at an index of at most `INT_MAX`, and more than
`m` units of fuel, the loop ends after `m` bodies with these `m` bytes XORed
and nothing else changed. -/
theorem xorEncryptLoop_spec (key : Byte) :
    ∀ (suf pre : List Byte) (m fuel it : Nat) (tr : List Access),
      strlen suf = some m → m < fuel → pre.length + m ≤ INT_MAX →
      xorEncryptLoop key fuel { data := pre ++ suf, i := pre.length, iters := it, trace := tr }
        = .ok { data := pre ++ ((suf.take m).map (· ^^^ key) ++ suf.drop m)
                i := pre.length + m
                iters := it + m
                trace := tr ++ loopAccesses pre.length m }
  | [], _, _, _, _, _, h, _, _ => by simp [strlen] at h
  | c :: rest, pre, m, fuel, it, tr, h, hf, hb => by
    obtain ⟨f, rfl⟩ : ∃ f, fuel = f + 1 := ⟨fuel - 1, by omega⟩
    have hread : (pre ++ c :: rest)[pre.length]? = some c := by
      rw [List.getElem?_append_right (Nat.le_refl _)]
      simp
    by_cases hc : c = 0
    · have hm : m = 0 := by simpa [strlen, hc] using h.symm
      subst hm
      simp only [xorEncryptLoop, hread]
      simp [hc, loopAccesses]
    · simp only [strlen, hc, if_false, Option.map_eq_some'] at h
      obtain ⟨m', hm', rfl⟩ := h
      have hlt : pre.length < INT_MAX := by omega
      have ih := xorEncryptLoop_spec key rest (pre ++ [c ^^^ key]) m' f (it + 1)
        (tr ++ [.read pre.length, .read pre.length, .write pre.length]) hm' (by omega)
        (by simp only [List.length_append, List.length_singleton]; omega)
      have hset : (pre ++ c :: rest).set pre.length (c ^^^ key) = (pre ++ [c ^^^ key]) ++ rest := by
        simp
      simp only [xorEncryptLoop, hread]
      simp only [hc, ne_eq, not_false_eq_true, if_true, hlt, hset]
      simp only [List.length_append, List.length_singleton] at ih
      rw [ih]
      simp [loopAccesses, Nat.add_assoc, Nat.add_comm 1 m']

/-- With the first NUL of the rest of the buffer at an index above `INT_MAX`
the loop faults at the increment of its counter. -/
theorem xorEncryptLoop_overflow (key : Byte) :
    ∀ (suf pre : List Byte) (m fuel it : Nat) (tr : List Access),
      strlen suf = some m → m < fuel → pre.length ≤ INT_MAX → INT_MAX < pre.length + m →
      xorEncryptLoop key fuel { data := pre ++ suf, i := pre.length, iters := it, trace := tr }
        = .error .intOverflow
  | [], _, _, _, _, _, h, _, _, _ => by simp [strlen] at h
  | c :: rest, pre, m, fuel, it, tr, h, hf, hle, hb => by
    obtain ⟨f, rfl⟩ : ∃ f, fuel = f + 1 := ⟨fuel - 1, by omega⟩
    have hread : (pre ++ c :: rest)[pre.length]? = some c := by
      rw [List.getElem?_append_right (Nat.le_refl _)]
      simp
    by_cases hc : c = 0
    · have hm : m = 0 := by simpa [strlen, hc] using h.symm
      omega
    · simp only [strlen, hc, if_false, Option.map_eq_some'] at h
      obtain ⟨m', hm', rfl⟩ := h
      by_cases hlt : pre.length < INT_MAX
      · have ih := xorEncryptLoop_overflow key rest (pre ++ [c ^^^ key]) m' f (it + 1)
          (tr ++ [.read pre.length, .read pre.length, .write pre.length]) hm' (by omega)
          (by simp only [List.length_append, List.length_singleton]; omega)
          (by simp only [List.length_append, List.length_singleton]; omega)
        have hset : (pre ++ c :: rest).set pre.length (c ^^^ key)
            = (pre ++ [c ^^^ key]) ++ rest := by
          simp
        simp only [xorEncryptLoop, hread]
        simp only [hc, ne_eq, not_false_eq_true, if_true, hlt, hset]
        simp only [List.length_append, List.length_singleton] at ih
        exact ih
      · simp only [xorEncryptLoop, hread]
        simp only [hc, ne_eq, not_false_eq_true, if_true, hlt, if_false]

/-- With more units of fuel than the rest of the buffer has bytes, the loop
does not run out of fuel. -/
theorem xorEncryptLoop_fuel (key : Byte) :
    ∀ (suf pre : List Byte) (fuel it : Nat) (tr : List Access),
      suf.length < fuel →
      xorEncryptLoop key fuel { data := pre ++ suf, i := pre.length, iters := it, trace := tr }
        ≠ .error .outOfFuel
  | [], pre, fuel, it, tr, hf => by
    obtain ⟨f, rfl⟩ : ∃ f, fuel = f + 1 := ⟨fuel - 1, by omega⟩
    simp [xorEncryptLoop]
  | c :: rest, pre, fuel, it, tr, hf => by
    obtain ⟨f, rfl⟩ : ∃ f, fuel = f + 1 := ⟨fuel - 1, by omega⟩
    have hread : (pre ++ c :: rest)[pre.length]? = some c := by
      rw [List.getElem?_append_right (Nat.le_refl _)]
      simp
    simp only [List.length_cons] at hf
    by_cases hc : c = 0
    · simp only [xorEncryptLoop, hread]
      simp [hc]
    · by_cases hlt : pre.length < INT_MAX
      · have ih := xorEncryptLoop_fuel key rest (pre ++ [c ^^^ key]) f (it + 1)
          (tr ++ [.read pre.length, .read pre.length, .write pre.length]) (by omega)
        have hset : (pre ++ c :: rest).set pre.length (c ^^^ key)
            = (pre ++ [c ^^^ key]) ++ rest := by
          simp
        simp only [xorEncryptLoop, hread]
        simp only [hc, ne_eq, not_false_eq_true, if_true, hlt, hset]
        simp only [List.length_append, List.length_singleton] at ih
        exact ih
      · simp only [xorEncryptLoop, hread]
        simp only [hc, ne_eq, not_false_eq_true, if_true, hlt, if_false]
        decide

/-- With no NUL in the rest of a buffer of at most `INT_MAX` bytes the loop
runs off the end of the array. -/
theorem xorEncryptLoop_unterminated (key : Byte) :
    ∀ (suf pre : List Byte) (fuel it : Nat) (tr : List Access),
      strlen suf = none → suf.length < fuel → pre.length + suf.length ≤ INT_MAX →
      xorEncryptLoop key fuel { data := pre ++ suf, i := pre.length, iters := it, trace := tr }
        = .error .outOfBounds
  | [], pre, fuel, it, tr, _, hf, _ => by
    obtain ⟨f, rfl⟩ : ∃ f, fuel = f + 1 := ⟨fuel - 1, by omega⟩
    simp [xorEncryptLoop]
  | c :: rest, pre, fuel, it, tr, h, hf, hb => by
    obtain ⟨f, rfl⟩ : ∃ f, fuel = f + 1 := ⟨fuel - 1, by omega⟩
    have hread : (pre ++ c :: rest)[pre.length]? = some c := by
      rw [List.getElem?_append_right (Nat.le_refl _)]
      simp
    by_cases hc : c = 0
    · simp [strlen, hc] at h
    · simp only [strlen, hc, if_false, Option.map_eq_none'] at h
      simp only [List.length_cons] at hf hb
      have hlt : pre.length < INT_MAX := by omega
      have ih := xorEncryptLoop_unterminated key rest (pre ++ [c ^^^ key]) f (it + 1)
        (tr ++ [.read pre.length, .read pre.length, .write pre.length]) h (by omega)
        (by simp only [List.length_append, List.length_singleton]; omega)
      have hset : (pre ++ c :: rest).set pre.length (c ^^^ key) = (pre ++ [c ^^^ key]) ++ rest := by
        simp
      simp only [xorEncryptLoop, hread]
      simp only [hc, ne_eq, not_false_eq_true, if_true, hlt, hset]
      simp only [List.length_append, List.length_singleton] at ih
      exact ih

/-- A buffer has a first NUL or has none. -/
theorem strlen_eq_none_or_some (data : List Byte) : strlen data = none ∨ ∃ n, strlen data = some n := by
  cases h : strlen data with
  | none => exact Or.inl rfl
  | some n => exact Or.inr ⟨n, rfl⟩

/-- The run of a call on a buffer with its first NUL at an index of at most
`INT_MAX`: the bytes before the first NUL are XORed with the key, the rest of
the buffer is kept, and the loop ends with its counter on the first NUL. -/
theorem xorEncryptRun_spec (data : List Byte) (key : Byte) (n : Nat) (h : strlen data = some n)
    (hb : n ≤ INT_MAX) :
    xorEncryptRun data key
      = .ok { data := (data.take n).map (· ^^^ key) ++ data.drop n
              i := n
              iters := n
              trace := loopAccesses 0 n } := by
  have hn := strlen_lt_length data n h
  have := xorEncryptLoop_spec key data [] n (data.length + 1) 0 [] h (by omega)
    (by simpa using hb)
  simpa [xorEncryptRun] using this

/-- The buffer a call leaves on a terminated buffer. -/
theorem xorEncrypt_spec (data : List Byte) (key : Byte) (n : Nat) (h : strlen data = some n)
    (hb : n ≤ INT_MAX) :
    xorEncrypt data key = .ok ((data.take n).map (· ^^^ key) ++ data.drop n) := by
  simp [xorEncrypt, xorEncryptRun_spec data key n h hb, Except.map]

/-- The call on a buffer with its first NUL at an index above `INT_MAX` faults at
the increment of the counter. -/
theorem xorEncryptRun_overflow (data : List Byte) (key : Byte) (n : Nat)
    (h : strlen data = some n) (hb : INT_MAX < n) :
    xorEncryptRun data key = .error .intOverflow := by
  have hn := strlen_lt_length data n h
  have := xorEncryptLoop_overflow key data [] n (data.length + 1) 0 [] h (by omega)
    (by simp) (by simpa using hb)
  simpa [xorEncryptRun] using this

/-- The fuel `xorEncryptRun` gives its loop never runs out. -/
theorem xorEncryptRun_fuel (data : List Byte) (key : Byte) :
    xorEncryptRun data key ≠ .error .outOfFuel := by
  have := xorEncryptLoop_fuel key data [] (data.length + 1) 0 [] (by omega)
  simpa [xorEncryptRun] using this

/-- The first NUL of a zero-free string followed by a NUL is that NUL. -/
theorem strlen_append_nul : ∀ (a rest : List Byte), (0 : Byte) ∉ a →
    strlen (a ++ 0 :: rest) = some a.length
  | [], rest, _ => by simp [strlen]
  | c :: a, rest, h => by
    have hc : c ≠ 0 := fun hc => h (by simp [hc])
    have ha : (0 : Byte) ∉ a := fun ha => h (List.mem_cons_of_mem _ ha)
    simp [strlen, hc, strlen_append_nul a rest ha]

/-- The call on a zero-free string followed by its terminator. -/
theorem xorEncrypt_append_nul (a rest : List Byte) (key : Byte) (h : (0 : Byte) ∉ a)
    (hb : a.length ≤ INT_MAX) :
    xorEncrypt (a ++ 0 :: rest) key = .ok (a.map (· ^^^ key) ++ 0 :: rest) := by
  rw [xorEncrypt_spec _ key a.length (strlen_append_nul a rest h) hb]
  simp

/-- C1, evaluated: on the buffer `"A"` with the key `'A'` the first call stores
a NUL at index 0, the second call stops there, and the buffer after the two
calls is not the buffer before them. -/
theorem xorEncrypt_twice_key_byte :
    xorEncrypt [0x41, 0] 0x41 = .ok [0, 0] ∧
    xorEncryptTwice [0x41, 0] 0x41 = .ok [0, 0] ∧
    xorEncryptTwice [0x41, 0] 0x41 ≠ .ok [0x41, 0] := by
  decide

/-- C3, evaluated: the buffer `"AB"` holds a string of length 2; after the call
with the key `'A'` the buffer holds a string of length 0. -/
theorem xorEncrypt_length_key_byte :
    strlen [0x41, 0x42, 0] = some 2 ∧
    xorEncrypt [0x41, 0x42, 0] 0x41 = .ok [0, 0x03, 0] ∧
    strlen [0, 0x03, 0] = some 0 := by
  decide

set_option maxRecDepth 100000 in
/-- C4, evaluated: for the message `"BAD"` and the key `"A"`, `main` returns 0
having printed `BAD` after `Original message: ` and `B` after `Decrypted: `. -/
theorem main_decrypted_key_byte :
    main [[0x78], [0x42, 0x41, 0x44], [0x41]]
      = .ok { status := 0
              out := [.banner, .original [0x42, 0x41, 0x44], .keyLine 0x41,
                      .encrypted [0x03], .decrypted [0x42]]
              copies := 1
              xorCalls := 2 } := by
  decide

/-- C5, as stated, fails: on the buffer holding the byte `0x00` and then the
terminator, the call with key `0xFF` leaves `0x00` at index 0, not `0xFF`. -/
theorem xorEncrypt_zero_byte_unchanged :
    xorEncrypt [0x00, 0] 0xFF = .ok [0x00, 0] ∧
    xorEncrypt [0x00, 0] 0xFF ≠ .ok [0xFF, 0] := by
  decide

/-- C5, amended: a byte `0x00` ends the sequence.  On every buffer whose first
byte is `0x00` the call with key `0xFF` runs no iteration and leaves the buffer
as it is, holding the empty string; so does the call repeated. -/
theorem xorEncrypt_leading_nul (rest : List Byte) :
    xorEncryptRun (0x00 :: rest) 0xFF
      = .ok { data := 0x00 :: rest, i := 0, iters := 0, trace := [.read 0] } ∧
    xorEncrypt (0x00 :: rest) 0xFF = .ok (0x00 :: rest) ∧
    xorEncryptTwice (0x00 :: rest) 0xFF = .ok (0x00 :: rest) ∧
    cstr (0x00 :: rest) = [] := by
  have h1 : xorEncryptRun (0x00 :: rest) 0xFF
      = .ok { data := 0x00 :: rest, i := 0, iters := 0, trace := [.read 0] } := by
    rw [xorEncryptRun_spec (0x00 :: rest) 0xFF 0 (by simp [strlen]) (Nat.zero_le _)]
    simp [loopAccesses]
  have h2 : xorEncrypt (0x00 :: rest) 0xFF = .ok (0x00 :: rest) := by
    simp [xorEncrypt, h1, Except.map]
  refine ⟨h1, h2, ?_, rfl⟩
  show (xorEncrypt (0x00 :: rest) 0xFF >>= fun data1 => xorEncrypt data1 0xFF) = _
  rw [h2]
  exact h2

set_option maxRecDepth 100000 in
/-- C6: on the buffer `"Hello World"` with the key `'A'` (0x41) the call leaves
bytes that differ from `"Hello World"`, and the call repeated with the same key
leaves the bytes of `"Hello World"`; `main` prints them so. -/
theorem xorEncrypt_hello_world :
    xorEncrypt (helloWorld ++ [0]) 0x41
      = .ok ([0x09, 0x24, 0x2D, 0x2D, 0x2E, 0x61, 0x16, 0x2E, 0x33, 0x2D, 0x25] ++ [0]) ∧
    ([0x09, 0x24, 0x2D, 0x2D, 0x2E, 0x61, 0x16, 0x2E, 0x33, 0x2D, 0x25] : List Byte) ≠ helloWorld ∧
    xorEncrypt ([0x09, 0x24, 0x2D, 0x2D, 0x2E, 0x61, 0x16, 0x2E, 0x33, 0x2D, 0x25] ++ [0]) 0x41
      = .ok (helloWorld ++ [0]) ∧
    main [[0x78], helloWorld, [0x41]]
      = .ok { status := 0
              out := [.banner, .original helloWorld, .keyLine 0x41,
                      .encrypted [0x09, 0x24, 0x2D, 0x2D, 0x2E, 0x61, 0x16, 0x2E, 0x33, 0x2D, 0x25],
                      .decrypted helloWorld]
              copies := 1
              xorCalls := 2 } := by
  decide

/-- The byte at an index before the first NUL after the call. -/
theorem xorEncrypt_byte_at (data : List Byte) (key : Byte) (n i : Nat) (c : Byte)
    (h : strlen data = some n) (hi : i < n) (hc : data[i]? = some c) :
    ((data.take n).map (· ^^^ key) ++ data.drop n)[i]? = some (c ^^^ key) := by
  have hn := strlen_lt_length data n h
  have hlen : i < ((data.take n).map (· ^^^ key)).length := by
    simp
    omega
  rw [List.getElem?_append_left hlen, List.getElem?_map, List.getElem?_take_of_lt hi, hc]
  rfl

/-- The byte at an index from the first NUL on after the call. -/
theorem xorEncrypt_byte_from (data : List Byte) (key : Byte) (n i : Nat)
    (h : strlen data = some n) (hi : n ≤ i) :
    ((data.take n).map (· ^^^ key) ++ data.drop n)[i]? = data[i]? := by
  have hn := strlen_lt_length data n h
  have hlen : ((data.take n).map (· ^^^ key)).length = n := by
    simp
    omega
  rw [List.getElem?_append_right (by omega), hlen, List.getElem?_drop]
  congr 1
  omega

/-- C8, as stated, fails: index 2 is inside both buffers `41 00 42 00` and
`41 43 42 00` and holds `0x42` in both; after the call with key `0x01` it holds
`0x42` in the first, where the loop stopped at index 1, and `0x43` in the
second. -/
theorem xorEncrypt_bytewise_other_index :
    [(0x41 : Byte), 0x00, 0x42, 0x00][2]? = [(0x41 : Byte), 0x43, 0x42, 0x00][2]? ∧
    xorEncrypt [0x41, 0x00, 0x42, 0x00] 0x01 = .ok [0x40, 0x00, 0x42, 0x00] ∧
    xorEncrypt [0x41, 0x43, 0x42, 0x00] 0x01 = .ok [0x40, 0x42, 0x43, 0x00] ∧
    [(0x40 : Byte), 0x00, 0x42, 0x00][2]? ≠ [(0x40 : Byte), 0x42, 0x43, 0x00][2]? := by
  decide

/-- C8, amended: for two buffers with their first NULs at `n` and `m` (both at
most `INT_MAX`) and an index `i` that holds the same byte `b` in both, both
calls return; the byte each leaves at `i` is `b` XOR the key when `i` lies
before the first NUL of its buffer and `b` itself otherwise; so the two bytes
are equal exactly when `i` lies before the first NUL of both buffers or of
neither, or the key is 0. -/
theorem xorEncrypt_bytewise (s t : List Byte) (key : Byte) (n m i : Nat) (b : Byte)
    (hs : strlen s = some n) (ht : strlen t = some m) (hn : n ≤ INT_MAX) (hm : m ≤ INT_MAX)
    (hsb : s[i]? = some b) (htb : t[i]? = some b) :
    ∃ s1 t1, xorEncrypt s key = .ok s1 ∧ xorEncrypt t key = .ok t1 ∧
      s1[i]? = some (if i < n then b ^^^ key else b) ∧
      t1[i]? = some (if i < m then b ^^^ key else b) ∧
      (s1[i]? = t1[i]? ↔ ((i < n ↔ i < m) ∨ key = 0)) := by
  have hs1 : ((s.take n).map (· ^^^ key) ++ s.drop n)[i]?
      = some (if i < n then b ^^^ key else b) := by
    by_cases hin : i < n
    · rw [xorEncrypt_byte_at s key n i b hs hin hsb, if_pos hin]
    · rw [xorEncrypt_byte_from s key n i hs (by omega), hsb, if_neg hin]
  have ht1 : ((t.take m).map (· ^^^ key) ++ t.drop m)[i]?
      = some (if i < m then b ^^^ key else b) := by
    by_cases him : i < m
    · rw [xorEncrypt_byte_at t key m i b ht him htb, if_pos him]
    · rw [xorEncrypt_byte_from t key m i ht (by omega), htb, if_neg him]
  refine ⟨_, _, xorEncrypt_spec s key n hs hn, xorEncrypt_spec t key m ht hm, hs1, ht1, ?_⟩
  rw [hs1, ht1]
  by_cases hin : i < n <;> by_cases him : i < m
  · simp [hin, him]
  · have hside : ¬ (i < n ↔ i < m) := fun h => him (h.mp hin)
    rw [if_pos hin, if_neg him]
    constructor
    · intro h
      exact Or.inr (byte_xor_eq_self b key (Option.some.inj h))
    · intro h
      rcases h with h | h
      · exact absurd h hside
      · rw [h, byte_xor_zero]
  · have hside : ¬ (i < n ↔ i < m) := fun h => hin (h.mpr him)
    rw [if_neg hin, if_pos him]
    constructor
    · intro h
      exact Or.inr (byte_xor_eq_self b key (Option.some.inj h).symm)
    · intro h
      rcases h with h | h
      · exact absurd h hside
      · rw [h, byte_xor_zero]
  · simp [hin, him]

/-- Byte-wise independence at the buffers `"Hi"` and `"Oi!"`, index 1. -/
theorem xorEncrypt_bytewise_witness :
    strlen [0x48, 0x69, 0] = some 2 ∧ strlen [0x4F, 0x69, 0x21, 0] = some 3 ∧
    2 ≤ INT_MAX ∧ 3 ≤ INT_MAX ∧
    [(0x48 : Byte), 0x69, 0][1]? = some 0x69 ∧ [(0x4F : Byte), 0x69, 0x21, 0][1]? = some 0x69 ∧
    ∃ s1 t1, xorEncrypt [0x48, 0x69, 0] 0x41 = .ok s1 ∧
      xorEncrypt [0x4F, 0x69, 0x21, 0] 0x41 = .ok t1 ∧
      s1[1]? = some (if 1 < 2 then 0x69 ^^^ 0x41 else 0x69) ∧
      t1[1]? = some (if 1 < 3 then 0x69 ^^^ 0x41 else 0x69) ∧
      (s1[1]? = t1[1]? ↔ ((1 < 2 ↔ 1 < 3) ∨ (0x41 : Byte) = 0)) :=
  ⟨by decide, by decide, by decide, by decide, by decide, by decide,
   xorEncrypt_bytewise [0x48, 0x69, 0] [0x4F, 0x69, 0x21, 0] 0x41 2 3 1 0x69
     (by decide) (by decide) (by decide) (by decide) (by decide) (by decide)⟩

/-- C9, as stated, fails: for the chunks `[0x00]` and `[0x01]` and the key
`0x02` the call on the buffer of the concatenation stops at index 0 and leaves
`0x01` at index 1, where the call on the second chunk alone leaves `0x03`. -/
theorem chunk_homomorphism_zero_byte : ¬ ChunkHomomorphismAt [0x00] [0x01] 0x02 := by
  rintro ⟨ra, rb, hla, hlb, h1, h2, h3⟩
  obtain ⟨x, rfl⟩ := List.length_eq_one.mp hla
  obtain ⟨y, rfl⟩ := List.length_eq_one.mp hlb
  have e1 : xorEncrypt ([0x00] ++ [0]) 0x02 = .ok [0x00, 0] := by decide
  have e2 : xorEncrypt ([0x01] ++ [0]) 0x02 = .ok [0x03, 0] := by decide
  have e3 : xorEncrypt ([0x00] ++ [0x01] ++ [0]) 0x02 = .ok [0x00, 0x01, 0] := by decide
  rw [e1] at h1
  rw [e2] at h2
  rw [e3] at h3
  have hx : x = 0 := by
    injection h1 with h1
    simpa using h1.symm
  have hy : y = 3 := by
    injection h2 with h2
    simpa using h2.symm
  subst hx hy
  revert h3
  decide

/-- The string a buffer holds has no zero byte. -/
theorem not_mem_cstr (data : List Byte) : (0 : Byte) ∉ cstr data := by
  intro h
  have := List.mem_takeWhile_imp h
  simp at this

/-- The string of a zero-free list followed by a NUL is that list. -/
theorem cstr_append_nul : ∀ (a rest : List Byte), (0 : Byte) ∉ a → cstr (a ++ 0 :: rest) = a
  | [], rest, _ => by simp [cstr]
  | c :: a, rest, h => by
    have hc : c ≠ 0 := fun hc => h (by simp [hc])
    have ha : (0 : Byte) ∉ a := fun ha => h (List.mem_cons_of_mem _ ha)
    have ih := cstr_append_nul a rest ha
    simp only [cstr] at ih
    simp only [cstr, List.cons_append, List.takeWhile_cons, ne_eq, hc, not_false_eq_true,
      decide_True, if_true, ih]

/-- A buffer that holds a NUL is its string, the terminator, and a rest. -/
theorem exists_cstr_append_nul : ∀ (data : List Byte), (0 : Byte) ∈ data →
    ∃ rest, data = cstr data ++ 0 :: rest
  | [], h => by simp at h
  | c :: data, h => by
    by_cases hc : c = 0
    · exact ⟨data, by simp [cstr, hc]⟩
    · have hr : (0 : Byte) ∈ data := by
        rcases List.mem_cons.mp h with h0 | h0
        · exact absurd h0.symm hc
        · exact h0
      obtain ⟨rest, hrest⟩ := exists_cstr_append_nul data hr
      refine ⟨rest, ?_⟩
      simp only [cstr] at hrest
      simp only [cstr, List.takeWhile_cons, ne_eq, hc, not_false_eq_true, decide_True, if_true,
        List.cons_append]
      rw [← hrest]

/-- The call with key 0 leaves a terminated buffer as it is. -/
theorem xorEncrypt_zero (data : List Byte) (n : Nat) (h : strlen data = some n)
    (hb : n ≤ INT_MAX) :
    xorEncrypt data 0 = .ok data := by
  rw [xorEncrypt_spec data 0 n h hb]
  have hid : (fun x : Byte => x ^^^ 0) = id := funext byte_xor_zero
  rw [hid, List.map_id, List.take_append_drop]

/-- The call on a terminated buffer of at most `INT_MAX` bytes returns a
terminated buffer of the same size. -/
theorem xorEncrypt_ok_of_mem (data : List Byte) (key : Byte) (h : (0 : Byte) ∈ data)
    (hb : data.length ≤ INT_MAX) :
    ∃ out, xorEncrypt data key = .ok out ∧ (0 : Byte) ∈ out ∧ out.length = data.length := by
  obtain ⟨rest, hrest⟩ := exists_cstr_append_nul data h
  have hlen : data.length = (cstr data).length + (rest.length + 1) := by
    have := congrArg List.length hrest
    simpa using this
  refine ⟨(cstr data).map (· ^^^ key) ++ 0 :: rest, ?_, by simp, ?_⟩
  · have := xorEncrypt_append_nul (cstr data) rest key (not_mem_cstr data) (by omega)
    rw [← hrest] at this
    exact this
  · simp only [List.length_append, List.length_map, List.length_cons]
    omega

/-- The array `message` in closed form: the message cut at 255 bytes, then
NULs up to the capacity. -/
theorem messageBuffer_eq (arg : List Byte) :
    messageBuffer arg
      = (cstr arg).take 255 ++ 0 :: List.replicate (255 - ((cstr arg).take 255).length) 0 := by
  have hlen : ((cstr arg).take 255).length ≤ 255 := by
    simp
  generalize hb : (cstr arg).take 255 = b at hlen
  have hdrop : List.drop 255 (List.replicate 256 (0 : Byte)) = [0] := by decide
  have h1 : strncpy (List.replicate MAX_BUFFER 0) arg (MAX_BUFFER - 1)
      = (b ++ List.replicate (255 - b.length) 0) ++ [0] := by
    simp only [strncpy, MAX_BUFFER, hb]
    rw [hdrop]
  have hidx : MAX_BUFFER - 1 = (b ++ List.replicate (255 - b.length) (0 : Byte)).length := by
    simp only [MAX_BUFFER, List.length_append, List.length_replicate]
    omega
  unfold messageBuffer
  rw [h1, hidx, List.set_append_right _ _ (Nat.le_refl _)]
  simp only [Nat.sub_self, List.set_cons_zero, List.append_assoc]
  congr 1
  rw [← List.replicate_succ, show List.replicate (255 - b.length) (0 : Byte) ++ [0]
    = List.replicate (255 - b.length) 0 ++ List.replicate 1 0 from rfl, ← List.replicate_add]

/-- The string the array `message` holds is the message cut at 255 bytes. -/
theorem cstr_messageBuffer (arg : List Byte) :
    cstr (messageBuffer arg) = (cstr arg).take 255 := by
  rw [messageBuffer_eq]
  apply cstr_append_nul
  intro h
  exact not_mem_cstr arg (List.mem_of_mem_take h)

/-- The array `message` holds a NUL. -/
theorem nul_mem_messageBuffer (arg : List Byte) : (0 : Byte) ∈ messageBuffer arg := by
  rw [messageBuffer_eq]
  simp

/-- The string length of the array `message`: the length of the message, at
most 255. -/
theorem strlen_messageBuffer (arg : List Byte) :
    strlen (messageBuffer arg) = some (min (cstr arg).length 255) := by
  rw [messageBuffer_eq]
  have h0 : (0 : Byte) ∉ (cstr arg).take 255 := fun h =>
    not_mem_cstr arg (List.mem_of_mem_take h)
  rw [strlen_append_nul _ _ h0, List.length_take, Nat.min_comm]

/-- The array `message` has `MAX_BUFFER` bytes. -/
theorem length_messageBuffer (arg : List Byte) : (messageBuffer arg).length = MAX_BUFFER := by
  rw [messageBuffer_eq]
  have hlen : ((cstr arg).take 255).length ≤ 255 := by
    simp
  simp only [List.length_append, List.length_cons, List.length_replicate, MAX_BUFFER]
  omega

/-- The body of `main` after the check of `argc`, for three or more arguments. -/
theorem main_three (prog m keyArg : List Byte) (rest : List (List Byte)) :
    main (prog :: m :: keyArg :: rest) =
      (xorEncrypt (messageBuffer m) (keyArg.headD 0) >>= fun m1 =>
        xorEncrypt m1 (keyArg.headD 0) >>= fun m2 =>
          pure { status := 0
                 out := [.banner, .original (cstr (messageBuffer m)), .keyLine (keyArg.headD 0),
                         .encrypted (cstr m1), .decrypted (cstr m2)]
                 copies := 1
                 xorCalls := 2 }) := by
  rfl

/-- What `main` returns and prints when its two calls of `xorEncrypt` return. -/
theorem main_three_of (prog m keyArg : List Byte) (rest : List (List Byte)) (m1 m2 : List Byte)
    (h1 : xorEncrypt (messageBuffer m) (keyArg.headD 0) = .ok m1)
    (h2 : xorEncrypt m1 (keyArg.headD 0) = .ok m2) :
    main (prog :: m :: keyArg :: rest)
      = .ok { status := 0
              out := [.banner, .original ((cstr m).take 255), .keyLine (keyArg.headD 0),
                      .encrypted (cstr m1), .decrypted (cstr m2)]
              copies := 1
              xorCalls := 2 } := by
  rw [main_three, h1]
  show (xorEncrypt m1 (keyArg.headD 0) >>= fun m2 => _) = _
  rw [h2, cstr_messageBuffer]
  rfl

/-- A zero-free list is the string it holds. -/
theorem cstr_eq_self (a : List Byte) (h : (0 : Byte) ∉ a) : cstr a = a := by
  simp only [cstr, List.takeWhile_eq_self_iff]
  intro x hx
  have : x ≠ 0 := fun hx0 => h (hx0 ▸ hx)
  simpa using this

/-- With three or more arguments `main` returns 0 after one copy and two calls
of `xorEncrypt`, none of which faults. -/
theorem main_three_ok (prog m keyArg : List Byte) (rest : List (List Byte)) :
    ∃ m1 m2, xorEncrypt (messageBuffer m) (keyArg.headD 0) = .ok m1 ∧
      xorEncrypt m1 (keyArg.headD 0) = .ok m2 ∧
      main (prog :: m :: keyArg :: rest)
        = .ok { status := 0
                out := [.banner, .original ((cstr m).take 255), .keyLine (keyArg.headD 0),
                        .encrypted (cstr m1), .decrypted (cstr m2)]
                copies := 1
                xorCalls := 2 } := by
  have hlen := length_messageBuffer m
  obtain ⟨m1, h1, hm1, hl1⟩ := xorEncrypt_ok_of_mem (messageBuffer m) (keyArg.headD 0)
    (nul_mem_messageBuffer m) (by rw [hlen]; decide)
  obtain ⟨m2, h2, _, _⟩ := xorEncrypt_ok_of_mem m1 (keyArg.headD 0) hm1
    (by rw [hl1, hlen]; decide)
  exact ⟨m1, m2, h1, h2, main_three_of prog m keyArg rest m1 m2 h1 h2⟩

/-- With fewer than three arguments `main` prints the usage and returns 1. -/
theorem main_usage (argv : List (List Byte)) (h : argv.length < 3) :
    main argv = .ok { status := 1
                      out := [.banner, .usageLine (cstr (argv.getD 0 [])),
                              .exampleLine (cstr (argv.getD 0 []))]
                      copies := 0
                      xorCalls := 0 } := by
  simp [main, h]

/-- A list of three or more arguments, taken apart. -/
theorem argv_three (argv : List (List Byte)) (h : 3 ≤ argv.length) :
    ∃ prog m keyArg rest, argv = prog :: m :: keyArg :: rest := by
  match argv, h with
  | prog :: m :: keyArg :: rest, _ => exact ⟨prog, m, keyArg, rest, rfl⟩

/-- C11: `main` returns, and its status is non-zero exactly when `argc < 3`; in
that case the status is 1 and neither `strncpy` nor `xorEncrypt` has been
called; with `argc >= 3` the status is 0. -/
theorem main_exit_status (argv : List (List Byte)) :
    ∃ r, main argv = .ok r ∧
      (r.status ≠ 0 ↔ argv.length < 3) ∧
      (argv.length < 3 → r.status = 1 ∧ r.copies = 0 ∧ r.xorCalls = 0) ∧
      (3 ≤ argv.length → r.status = 0) := by
  by_cases h : argv.length < 3
  · refine ⟨_, main_usage argv h, ?_, ?_, ?_⟩
    · simp [h]
    · intro _
      exact ⟨rfl, rfl, rfl⟩
    · intro h3
      omega
  · obtain ⟨prog, m, keyArg, rest, rfl⟩ := argv_three argv (by omega)
    obtain ⟨m1, m2, _, _, hmain⟩ := main_three_ok prog m keyArg rest
    refine ⟨_, hmain, ?_, ?_, ?_⟩
    · simp
    · intro h3
      exact absurd h3 h
    · intro _
      rfl

set_option maxRecDepth 100000 in
/-- C12, as stated, fails: with an empty message argument, and with an empty key
argument, `main` runs the codec twice and returns 0. -/
theorem main_empty_argument_accepted :
    main [[0x78], [], [0x41]]
      = .ok { status := 0
              out := [.banner, .original [], .keyLine 0x41, .encrypted [], .decrypted []]
              copies := 1
              xorCalls := 2 } ∧
    main [[0x78], [0x48, 0x69], []]
      = .ok { status := 0
              out := [.banner, .original [0x48, 0x69], .keyLine 0x00,
                      .encrypted [0x48, 0x69], .decrypted [0x48, 0x69]]
              copies := 1
              xorCalls := 2 } := by
  decide

/-- C12, amended: `main` checks only that both arguments are there.  With fewer
than three entries in `argv` it returns 1 without a call of `xorEncrypt`.  An
empty message is accepted: the two calls run on the empty string and `main`
returns 0.  An empty key is accepted: the key byte is the terminator `0x00`,
the two calls leave the message as it is, and `main` returns 0. -/
theorem main_checks_presence_only (prog m keyArg : List Byte) (rest : List (List Byte)) :
    (∀ argv : List (List Byte), argv.length < 3 →
      ∃ r, main argv = .ok r ∧ r.status = 1 ∧ r.copies = 0 ∧ r.xorCalls = 0) ∧
    main (prog :: [] :: keyArg :: rest)
      = .ok { status := 0
              out := [.banner, .original [], .keyLine (keyArg.headD 0),
                      .encrypted [], .decrypted []]
              copies := 1
              xorCalls := 2 } ∧
    main (prog :: m :: [] :: rest)
      = .ok { status := 0
              out := [.banner, .original ((cstr m).take 255), .keyLine 0,
                      .encrypted ((cstr m).take 255), .decrypted ((cstr m).take 255)]
              copies := 1
              xorCalls := 2 } := by
  refine ⟨fun argv h => ⟨_, main_usage argv h, rfl, rfl, rfl⟩, ?_, ?_⟩
  · have hb : messageBuffer [] = [] ++ 0 :: List.replicate 255 0 := by
      rw [messageBuffer_eq]
      rfl
    have hx : xorEncrypt (messageBuffer []) (keyArg.headD 0) = .ok (messageBuffer []) := by
      rw [hb]
      exact xorEncrypt_append_nul [] _ _ (by simp) (Nat.zero_le _)
    have hs : cstr (messageBuffer []) = [] := by
      rw [hb]
      exact cstr_append_nul [] _ (by simp)
    have := main_three_of prog [] keyArg rest _ _ hx hx
    rw [hs] at this
    exact this
  · have hx : xorEncrypt (messageBuffer m) 0 = .ok (messageBuffer m) :=
      xorEncrypt_zero _ _ (strlen_messageBuffer m) (by simp only [INT_MAX]; omega)
    have := main_three_of prog m [] rest _ _ hx hx
    rw [cstr_messageBuffer] at this
    exact this

/-- C13: on a buffer whose first byte is the NUL, for every key, the call
returns after zero iterations, having only read index 0; the buffer is as it
was and the string it holds is still empty. -/
theorem xorEncrypt_empty (rest : List Byte) (key : Byte) :
    cstr (0 :: rest) = [] ∧
    xorEncryptRun (0 :: rest) key
      = .ok { data := 0 :: rest, i := 0, iters := 0, trace := [.read 0] } ∧
    xorEncrypt (0 :: rest) key = .ok (0 :: rest) := by
  have h1 : xorEncryptRun (0 :: rest) key
      = .ok { data := 0 :: rest, i := 0, iters := 0, trace := [.read 0] } := by
    rw [xorEncryptRun_spec (0 :: rest) key 0 (by simp [strlen]) (Nat.zero_le _)]
    simp [loopAccesses]
  refine ⟨rfl, h1, ?_⟩
  simp [xorEncrypt, h1, Except.map]

/-- C14: for every message argument, with `L` the length of its string, the
array `main` passes to `xorEncrypt` has `MAX_BUFFER` bytes, its first NUL is at
index `min L 255`, and the string it holds is the first `min L 255` bytes of
the message; a message of at most 255 bytes is held whole. -/
theorem messageBuffer_truncates (prog m keyArg : List Byte) (rest : List (List Byte)) :
    main (prog :: m :: keyArg :: rest) =
      (xorEncrypt (messageBuffer m) (keyArg.headD 0) >>= fun m1 =>
        xorEncrypt m1 (keyArg.headD 0) >>= fun m2 =>
          pure { status := 0
                 out := [.banner, .original (cstr (messageBuffer m)), .keyLine (keyArg.headD 0),
                         .encrypted (cstr m1), .decrypted (cstr m2)]
                 copies := 1
                 xorCalls := 2 }) ∧
    (messageBuffer m).length = MAX_BUFFER ∧
    strlen (messageBuffer m) = some (min (cstr m).length 255) ∧
    min (cstr m).length 255 < MAX_BUFFER ∧
    cstr (messageBuffer m) = (cstr m).take (min (cstr m).length 255) ∧
    ((cstr m).length ≤ 255 → cstr (messageBuffer m) = cstr m) ∧
    ((0 : Byte) ∉ m → cstr (messageBuffer m) = m.take (min m.length 255)) := by
  have hc := cstr_messageBuffer m
  refine ⟨main_three prog m keyArg rest, length_messageBuffer m, strlen_messageBuffer m,
    ?_, ?_, ?_, ?_⟩
  · simp only [MAX_BUFFER]
    omega
  · rw [hc]
    by_cases h : (cstr m).length ≤ 255
    · rw [Nat.min_eq_left h, List.take_of_length_le h, List.take_length]
    · rw [Nat.min_eq_right (by omega)]
  · intro h
    rw [hc, List.take_of_length_le h]
  · intro h0
    have hm : cstr m = m := cstr_eq_self m h0
    rw [hc, hm]
    by_cases h : m.length ≤ 255
    · rw [Nat.min_eq_left h, List.take_of_length_le h, List.take_length]
    · rw [Nat.min_eq_right (by omega)]

/-! ## The string after one call and after two -/

/-- The truncating half of a negative `int` is not positive. -/
theorem tdiv_two_nonpos (t : Int) (h : t < 0) : Int.tdiv t 2 ≤ 0 := by
  have e := Int.neg_tdiv (-t) 2
  rw [Int.neg_neg] at e
  have h2 := @Int.tdiv_nonneg (-t) 2 (by omega) (by decide)
  rw [e]
  omega

/-- With a string length that converts to a negative `int` the loop of
`reverseString` does not run and the buffer is returned as it is. -/
theorem reverseString_negative (str : List Byte) (n : Nat) (h : strlen str = some n)
    (hneg : toInt32 n < 0) : reverseString str = .ok str := by
  have h1 := tdiv_two_nonpos (toInt32 n) hneg
  have hdiv : ¬ ((0 : Nat) : Int) < Int.tdiv (toInt32 n) 2 := by
    intro hlt
    rw [Nat.cast_zero] at hlt
    exact absurd (Int.lt_of_lt_of_le hlt h1) (Int.lt_irrefl 0)
  unfold reverseString
  rw [h]
  show reverseStringLoop (toInt32 n) ((toInt32 n).toNat / 2 + 1) 0 str = .ok str
  rw [reverseStringLoop, if_neg hdiv]

/-- A counter below the truncating half of `length` is below the half of its
natural value. -/
theorem lt_half_of_lt_tdiv (L : Int) (i : Nat) (h : (i : Int) < Int.tdiv L 2) :
    i < L.toNat / 2 := by
  by_cases hL : L < 0
  · have := tdiv_two_nonpos L hL
    omega
  · rw [Int.tdiv_eq_ediv (by omega) (by omega)] at h
    omega

/-- With the counter at most `length / 2` and more fuel than iterations left,
the loop of `reverseString` does not run out of fuel. -/
theorem reverseStringLoop_fuel (L : Int) : ∀ (fuel i : Nat) (str : List Byte),
    i ≤ L.toNat / 2 → L.toNat / 2 < fuel + i →
    reverseStringLoop L fuel i str ≠ .error .outOfFuel
  | 0, i, str, h1, h2 => by omega
  | f + 1, i, str, h1, h2 => by
    by_cases hcond : (i : Int) < Int.tdiv L 2
    · have hlt := lt_half_of_lt_tdiv L i hcond
      rw [reverseStringLoop, if_pos hcond]
      split
      · exact reverseStringLoop_fuel L f (i + 1) _ (by omega) (by omega)
      · decide
    · rw [reverseStringLoop, if_neg hcond]
      exact fun h => Except.noConfusion h

/-- The fuel `reverseString` gives its loop never runs out. -/
theorem reverseString_fuel (str : List Byte) : reverseString str ≠ .error .outOfFuel := by
  rcases strlen_eq_none_or_some str with h | ⟨n, h⟩
  · simp only [reverseString, h]
    decide
  · simp only [reverseString, h]
    exact reverseStringLoop_fuel (toInt32 n) _ 0 str (Nat.zero_le _) (by omega)

/-- XOR with a key leaves a list as it is exactly when the key is 0 or the list
is empty. -/
theorem map_xor_eq_self (key : Byte) : ∀ (L : List Byte),
    L.map (· ^^^ key) = L ↔ key = 0 ∨ L = []
  | [] => by simp
  | c :: L => by
    constructor
    · intro h
      simp only [List.map_cons, List.cons.injEq] at h
      exact Or.inl (byte_xor_eq_self c key h.1)
    · intro h
      rcases h with h | h
      · subst h
        have hid : (fun x : Byte => x ^^^ 0) = id := funext byte_xor_zero
        rw [hid, List.map_id]
      · exact absurd h (List.cons_ne_nil c L)

/-- A chunk holds no zero byte, or is a zero-free list, a zero byte and a rest. -/
theorem chunk_cases (l : List Byte) :
    (0 : Byte) ∉ l ∨ ∃ A q, (0 : Byte) ∉ A ∧ l = A ++ 0 :: q := by
  by_cases h : (0 : Byte) ∈ l
  · obtain ⟨q, hq⟩ := exists_cstr_append_nul l h
    exact Or.inr ⟨cstr l, q, not_mem_cstr l, hq⟩
  · exact Or.inl h

/-- With a zero byte in the first chunk, the call on the buffer of the two chunks
stops inside the first one; the chunk property then says that the call on the
buffer of the second chunk leaves that chunk as it is. -/
theorem chunk_after_nul (A qa b Rb : List Byte) (key : Byte) (h0 : (0 : Byte) ∉ A)
    (hA : A.length ≤ INT_MAX) (hRb : Rb.length = b.length)
    (hb : xorEncrypt (b ++ [0]) key = .ok (Rb ++ [0])) :
    ChunkHomomorphismAt (A ++ 0 :: qa) b key ↔ Rb = b := by
  have h1 : xorEncrypt ((A ++ 0 :: qa) ++ [0]) key
      = .ok ((A.map (· ^^^ key) ++ 0 :: qa) ++ [0]) := by
    have := xorEncrypt_append_nul A (qa ++ [0]) key h0 hA
    simpa using this
  have h3 : xorEncrypt ((A ++ 0 :: qa) ++ b ++ [0]) key
      = .ok ((A.map (· ^^^ key) ++ 0 :: qa) ++ b ++ [0]) := by
    have := xorEncrypt_append_nul A (qa ++ b ++ [0]) key h0 hA
    simpa using this
  constructor
  · rintro ⟨ra, rb, _, _, e1, e2, e3⟩
    rw [h1] at e1
    rw [hb] at e2
    rw [h3] at e3
    injection e1 with e1
    injection e2 with e2
    injection e3 with e3
    have hra := List.append_cancel_right e1
    have hrb := List.append_cancel_right e2
    rw [← hra, ← hrb] at e3
    have e4 : (A.map (· ^^^ key) ++ 0 :: qa) ++ (b ++ [0])
        = (A.map (· ^^^ key) ++ 0 :: qa) ++ (Rb ++ [0]) := by
      simpa using e3
    exact (List.append_cancel_right (List.append_cancel_left e4)).symm
  · intro hEq
    refine ⟨A.map (· ^^^ key) ++ 0 :: qa, Rb, by simp, hRb, h1, hb, ?_⟩
    rw [h3, hEq]

/-- C9, amended: for all chunks `a` and `b` of at most `INT_MAX` bytes together
and every key, the call on the buffer of `a ++ b` leaves the bytes the calls on
the buffer of `a` and on the buffer of `b` leave, one after the other, exactly
when `a` holds no zero byte, or the key is 0, or the string of `b` is empty
(`b` is empty or starts with a zero byte). -/
theorem xorEncrypt_chunks (a b : List Byte) (key : Byte)
    (hlen : a.length + b.length ≤ INT_MAX) :
    ChunkHomomorphismAt a b key ↔ ((0 : Byte) ∉ a ∨ key = 0 ∨ cstr b = []) := by
  rcases chunk_cases a with ha | ⟨A, qa, hA, rfl⟩
  · refine ⟨fun _ => Or.inl ha, fun _ => ?_⟩
    have h1 : xorEncrypt (a ++ [0]) key = .ok (a.map (· ^^^ key) ++ [0]) :=
      xorEncrypt_append_nul a [] key ha (by omega)
    rcases chunk_cases b with hb | ⟨B, qb, hB, rfl⟩
    · have hab : (0 : Byte) ∉ a ++ b := by simp [ha, hb]
      refine ⟨a.map (· ^^^ key), b.map (· ^^^ key), by simp, by simp, h1,
        xorEncrypt_append_nul b [] key hb (by omega), ?_⟩
      have := xorEncrypt_append_nul (a ++ b) [] key hab
        (by simp only [List.length_append]; omega)
      rw [List.map_append] at this
      exact this
    · simp only [List.length_append, List.length_cons] at hlen
      have haB : (0 : Byte) ∉ a ++ B := by simp [ha, hB]
      refine ⟨a.map (· ^^^ key), B.map (· ^^^ key) ++ 0 :: qb, by simp, by simp, h1, ?_, ?_⟩
      · have := xorEncrypt_append_nul B (qb ++ [0]) key hB (by omega)
        simpa using this
      · have := xorEncrypt_append_nul (a ++ B) (qb ++ [0]) key haB
          (by simp only [List.length_append]; omega)
        simpa using this
  · simp only [List.length_append, List.length_cons] at hlen
    have hmem : (0 : Byte) ∈ A ++ 0 :: qa := by simp
    rcases chunk_cases b with hb | ⟨B, qb, hB, rfl⟩
    · have h2 : xorEncrypt (b ++ [0]) key = .ok (b.map (· ^^^ key) ++ [0]) :=
        xorEncrypt_append_nul b [] key hb (by omega)
      rw [chunk_after_nul A qa b (b.map (· ^^^ key)) key hA (by omega) (by simp) h2,
        map_xor_eq_self, cstr_eq_self b hb]
      constructor
      · intro h
        exact Or.inr h
      · intro h
        rcases h with h | h
        · exact absurd hmem h
        · exact h
    · simp only [List.length_append, List.length_cons] at hlen
      have h2 : xorEncrypt ((B ++ 0 :: qb) ++ [0]) key
          = .ok ((B.map (· ^^^ key) ++ 0 :: qb) ++ [0]) := by
        have := xorEncrypt_append_nul B (qb ++ [0]) key hB (by omega)
        simpa using this
      rw [chunk_after_nul A qa (B ++ 0 :: qb) (B.map (· ^^^ key) ++ 0 :: qb) key hA (by omega)
        (by simp) h2, cstr_append_nul B qb hB]
      constructor
      · intro h
        exact Or.inr ((map_xor_eq_self key B).mp (List.append_cancel_right h))
      · intro h
        rcases h with h | h
        · exact absurd hmem h
        · rw [(map_xor_eq_self key B).mpr h]

/-- The chunk property at the chunks `"AB"` and `"C"` with the key `0x41`. -/
theorem xorEncrypt_chunks_witness :
    [(0x41 : Byte), 0x42].length + [(0x43 : Byte)].length ≤ INT_MAX ∧
    (ChunkHomomorphismAt [0x41, 0x42] [0x43] 0x41 ↔
      ((0 : Byte) ∉ [(0x41 : Byte), 0x42] ∨ (0x41 : Byte) = 0 ∨ cstr [0x43] = [])) :=
  ⟨by decide, xorEncrypt_chunks [0x41, 0x42] [0x43] 0x41 (by decide)⟩

end Silence
